import Mathlib

set_option exponentiation.threshold 1100
set_option maxRecDepth 8000

/-!
Verification of the `node2object` XML-to-JSON converter (src/lib.rs).

The development shallowly embeds the Rust source:

* `Element` models `treexml::Element` as exposed to this crate (tag name,
  optional text, optional CDATA, ordered attribute pairs with unique names,
  ordered children), following the input contract stated by the spec for the
  external XML parser.
* `Value` models `serde_json::Value`; the mapping variant is an
  insertion-ordered association list (`JMap`), following the spec's output
  contract ("keys unique, insertion order preserved").  JSON numbers are
  represented by the exact decimal rational the numeric literal denotes;
  rounding to binary floating point is elided, but the finite/non-finite
  distinction (which decides control flow in `parse_text`) is modelled
  exactly via the IEEE double rounding-overflow threshold.
* Fallible operations (`Map::remove(..).unwrap()`, `as_array_mut().unwrap()`)
  are embedded in `Except Unit`: `Except.error ()` marks a reachable panic.
-/

/-- The JSON value tree produced by the converter (models `serde_json::Value`).
`object` carries an insertion-ordered association list. -/
inductive Value where
  | null
  | bool (b : Bool)
  | number (q : ℚ)
  | str (s : String)
  | arr (vs : List Value)
  | object (entries : List (String × Value))

/-- Insertion-ordered string-keyed mapping (models `serde_json::Map<String, Value>`). -/
abbrev JMap := List (String × Value)

/-- First value stored at key `k` (models `Map::get`). -/
def mapGet : JMap → String → Option Value
  | [], _ => none
  | (k', v') :: m, k => if k' = k then some v' else mapGet m k

/-- `Map::insert`: replace the value at an existing key in place, else append. -/
def mapInsert : JMap → String → Value → JMap
  | [], k, v => [(k, v)]
  | (k', v') :: m, k, v => if k' = k then (k, v) :: m else (k', v') :: mapInsert m k v

/-- `Map::remove` paired with the removed value; `none` when the key is absent
(the source calls `.unwrap()` on this). -/
def mapRemoveGet : JMap → String → Option (Value × JMap)
  | [], _ => none
  | (k', v') :: m, k =>
    if k' = k then some (v', m)
    else (mapRemoveGet m k).map (fun p => (p.1, (k', v') :: p.2))

/-- `Map::get_mut(..).unwrap().as_array_mut().unwrap().push(v)`: append `v` to the
array stored at `k`; `none` when the key is absent or holds a non-array. -/
def mapPushArr : JMap → String → Value → Option JMap
  | [], _, _ => none
  | (k', v') :: m, k, v =>
    if k' = k then
      match v' with
      | Value.arr l => some ((k', Value.arr (l ++ [v])) :: m)
      | _ => none
    else (mapPushArr m k v).map (fun m' => (k', v') :: m')

/-- Keys of a mapping, in order. -/
def keysOf (m : JMap) : List String := m.map Prod.fst

/-- Sequential insertion of pairs into a mapping (models `collect::<Map<_,_>>()`
and the attribute insertion loops of the source). -/
def collectInto (init : JMap) (ps : List (String × Value)) : JMap :=
  ps.foldl (fun m kv => mapInsert m kv.1 kv.2) init

/-! ### The text value parser (`parse_text`, src/lib.rs lines 75-87)

`text.parse::<f64>()` is modelled by `parseF64`, following the documented
grammar of the environment's floating-point parser: an optional sign, then a
case-insensitive special value (`inf`, `infinity`, `nan`) or a decimal
mantissa (`Digit+ '.'? Digit*` or `'.' Digit+`) with an optional
case-insensitive exponent (`('e'|'E') Sign? Digit+`).  Finite results carry
the exact decimal rational. -/

/-- Outcome of a successful floating-point parse. -/
inductive FloatParse where
  | finite (q : ℚ)
  | infVal (neg : Bool)
  | nanVal
deriving DecidableEq

/-- Strip one leading sign character; `true` means negative. -/
def stripSign : List Char → Bool × List Char
  | '-' :: r => (true, r)
  | '+' :: r => (false, r)
  | l => (false, l)

/-- Numeric value of a digit string (most significant first). -/
def natOfDigits (l : List Char) : ℕ :=
  l.foldl (fun a c => 10 * a + (c.toNat - '0'.toNat)) 0

/-- Split at the first exponent marker, keeping the part after it. -/
def splitAtExp : List Char → List Char × Option (List Char)
  | [] => ([], none)
  | ch :: r =>
    if ch = 'e' ∨ ch = 'E' then ([], some r)
    else
      let p := splitAtExp r
      (ch :: p.1, p.2)

/-- Split at the first decimal point, keeping the part after it. -/
def splitAtDot : List Char → List Char × Option (List Char)
  | [] => ([], none)
  | ch :: r =>
    if ch = '.' then ([], some r)
    else
      let p := splitAtDot r
      (ch :: p.1, p.2)

/-- Parse a decimal mantissa (`Digit+ '.'? Digit*` or `'.' Digit+`). -/
def parseMantissa (l : List Char) : Option ℚ :=
  let p := splitAtDot l
  match p.2 with
  | none =>
    if !p.1.isEmpty && p.1.all Char.isDigit then some ((natOfDigits p.1 : ℕ) : ℚ)
    else none
  | some fr =>
    if (!p.1.isEmpty || !fr.isEmpty) && p.1.all Char.isDigit && fr.all Char.isDigit then
      some (((natOfDigits p.1 : ℕ) : ℚ) + ((natOfDigits fr : ℕ) : ℚ) / ((10 ^ fr.length : ℕ) : ℚ))
    else none

/-- The floating-point parser used by `text.parse::<f64>()`. -/
def parseF64 (s : String) : Option FloatParse :=
  let sg := stripSign s.data
  let low := sg.2.map Char.toLower
  if low = "inf".data ∨ low = "infinity".data then some (FloatParse.infVal sg.1)
  else if low = "nan".data then some FloatParse.nanVal
  else
    let sp := splitAtExp sg.2
    match parseMantissa sp.1 with
    | none => none
    | some q =>
      match sp.2 with
      | none => some (FloatParse.finite (if sg.1 then -q else q))
      | some ex =>
        let eg := stripSign ex
        if !eg.2.isEmpty && eg.2.all Char.isDigit then
          let n := natOfDigits eg.2
          let scaled := if eg.1 then q / ((10 ^ n : ℕ) : ℚ) else q * ((10 ^ n : ℕ) : ℚ)
          some (FloatParse.finite (if sg.1 then -scaled else scaled))
        else none

/-- Smallest decimal magnitude that IEEE double round-to-nearest sends to
infinity: `2^1024 - 2^970`. -/
def f64MinOverflow : ℚ := ((2 ^ 1024 - 2 ^ 970 : ℕ) : ℚ)

/-- `serde_json::Number::from_f64`: `some` exactly when the parsed value is
finite after rounding. -/
def floatFiniteNumber : FloatParse → Option ℚ
  | FloatParse.finite q => if f64MinOverflow ≤ q ∨ q ≤ -f64MinOverflow then none else some q
  | _ => none

/-- The number trial of `parse_text`: a string parsed as `f64` and accepted by
`Number::from_f64`. -/
def rustFloatJsonNumber (s : String) : Option ℚ :=
  (parseF64 s).bind floatFiniteNumber

/-- `text.parse::<bool>()`: exact case-sensitive match of the two literals. -/
def rustParseBool (s : String) : Option Bool :=
  if s = "true" then some true else if s = "false" then some false else none

/-- `parse_text` (src/lib.rs lines 75-87): number, then boolean, then string. -/
def parse_text (s : String) : Value :=
  match rustFloatJsonNumber s with
  | some q => Value.number q
  | none =>
    match rustParseBool s with
    | some b => Value.bool b
    | none => Value.str s

/-! ### The XML node model and classifier -/

/-- One XML element as exposed by the external parser: tag name, ordered
attribute pairs (unique names), optional text, optional CDATA, ordered
children. -/
inductive Element where
  | mk (name : String) (attributes : List (String × String))
       (text : Option String) (cdata : Option String) (children : List Element)

def Element.name : Element → String
  | .mk n _ _ _ _ => n

def Element.attributes : Element → List (String × String)
  | .mk _ a _ _ _ => a

def Element.text : Element → Option String
  | .mk _ _ t _ _ => t

def Element.cdata : Element → Option String
  | .mk _ _ _ c _ => c

def Element.children : Element → List Element
  | .mk _ _ _ _ ch => ch

/-- The six shape categories. -/
inductive XMLNodeType where
  | Empty
  | Text
  | Attributes
  | TextAndAttributes
  | Parent
  | SemiStructured
deriving DecidableEq

/-- `scan_xml_node` (src/lib.rs lines 55-73). -/
def scan_xml_node (e : Element) : XMLNodeType :=
  if e.children.isEmpty then
    if e.text.isNone && e.cdata.isNone then
      if e.attributes.isEmpty then XMLNodeType.Empty else XMLNodeType.Attributes
    else if e.attributes.isEmpty then XMLNodeType.Text
    else XMLNodeType.TextAndAttributes
  else if e.text.isNone && e.cdata.isNone then XMLNodeType.Parent
  else XMLNodeType.SemiStructured

/-- `parse_text_contents` (src/lib.rs lines 89-96): text content followed by
CDATA content, absent parts contributing the empty string. -/
def parse_text_contents (e : Element) : Value :=
  parse_text ((e.text.getD "") ++ (e.cdata.getD ""))

/-- Attribute pairs as JSON entries: `k = v` becomes `("@k", parse_text v)`. -/
def attrPairsOf (attrs : List (String × String)) : List (String × Value) :=
  attrs.map (fun kv => ("@" ++ kv.1, parse_text kv.2))

/-! ### The tree converter -/

/-- The child fold of the `Parent` arm of `convert_node_aux`
(src/lib.rs lines 111-130), over the already-computed child results.
State: the output mapping `data`, the `firstpass` set and the `vectorized`
set (`HashSet`s used only through `contains`/`insert`, modelled as lists).
`Except.error ()` marks a failing `.unwrap()`. -/
def foldPairs : List (String × Except Unit (Option Value)) → JMap → List String → List String →
    Except Unit JMap
  | [], data, _, _ => Except.ok data
  | (name, res) :: ps, data, fp, vz =>
    match res with
    | Except.error er => Except.error er
    | Except.ok none => foldPairs ps data fp vz
    | Except.ok (some v) =>
      if name ∈ fp then
        if name ∈ vz then
          match mapPushArr data name v with
          | none => Except.error ()
          | some data' => foldPairs ps data' fp vz
        else
          match mapRemoveGet data name with
          | none => Except.error ()
          | some p => foldPairs ps (mapInsert p.2 name (Value.arr [p.1, v])) fp (name :: vz)
      else foldPairs ps (mapInsert data name v) (name :: fp) vz

mutual

/-- `convert_node_aux` (src/lib.rs lines 98-151). -/
def convert_node_aux : Element → Except Unit (Option Value)
  | Element.mk nm a t c ch =>
    match scan_xml_node (Element.mk nm a t c ch) with
    | XMLNodeType.Parent =>
      (match foldPairs (childResults ch) (collectInto [] (attrPairsOf a)) [] [] with
       | Except.error er => Except.error er
       | Except.ok m => Except.ok (some (Value.object m)))
    | XMLNodeType.Text => Except.ok (some (parse_text_contents (Element.mk nm a t c ch)))
    | XMLNodeType.Attributes => Except.ok (some (Value.object (collectInto [] (attrPairsOf a))))
    | XMLNodeType.TextAndAttributes =>
      Except.ok (some (Value.object (collectInto []
        (attrPairsOf a ++ [("#text", parse_text_contents (Element.mk nm a t c ch))]))))
    | _ => Except.ok none

/-- Tag name and conversion result of each child, in document order. -/
def childResults : List Element → List (String × Except Unit (Option Value))
  | [] => []
  | c :: cs => (Element.name c, convert_node_aux c) :: childResults cs

end

/-- `node2object` (src/lib.rs lines 154-158): a single-entry mapping wrapping
the root's conversion, `null` substituted when the converter yields no value. -/
def node2object (e : Element) : Except Unit JMap :=
  match convert_node_aux e with
  | Except.error er => Except.error er
  | Except.ok v => Except.ok [(e.name, v.getD Value.null)]

/-- Net effect of the child fold on one key, given the prior entry at that key,
its membership in `firstpass` and `vectorized`, and the values contributed at
that key by the remaining children. -/
def keyResult (prior : Option Value) (inF inV : Bool) : List Value → Option Value
  | [] => prior
  | v :: ws =>
    if inV then
      match prior with
      | some (Value.arr l) => some (Value.arr (l ++ v :: ws))
      | _ => none
    else if inF then
      match prior with
      | some p => some (Value.arr (p :: v :: ws))
      | none => none
    else
      match ws with
      | [] => some v
      | _ :: _ => some (Value.arr (v :: ws))

/-- Values contributed at tag `t` by a child-result list, in document order. -/
def okValuesAt (t : String) : List (String × Except Unit (Option Value)) → List Value
  | [] => []
  | (name, res) :: ps =>
    match res with
    | Except.ok (some v) => if name = t then v :: okValuesAt t ps else okValuesAt t ps
    | _ => okValuesAt t ps

/-- The per-tag grouping rule of the child fold: one contribution stays plain,
two or more become the array of all contributions in document order. -/
def groupRule : List Value → Option Value
  | [] => none
  | [v] => some v
  | vs => some (Value.arr vs)

/-! ### Lemmas about the mapping operations -/

theorem mapGet_mapInsert_self (m : JMap) (k : String) (v : Value) :
    mapGet (mapInsert m k v) k = some v := by
  induction m with
  | nil => simp [mapInsert, mapGet]
  | cons p m ih =>
    obtain ⟨k', v'⟩ := p
    by_cases h : k' = k <;> simp [mapInsert, mapGet, h, ih]

theorem mapGet_mapInsert_ne (m : JMap) (k : String) (v : Value) (t : String) (h : t ≠ k) :
    mapGet (mapInsert m k v) t = mapGet m t := by
  have hk : k ≠ t := Ne.symm h
  induction m with
  | nil => simp [mapInsert, mapGet, hk]
  | cons p m ih =>
    obtain ⟨k', v'⟩ := p
    by_cases h1 : k' = k
    · subst h1
      simp [mapInsert, mapGet, hk]
    · by_cases h2 : k' = t <;> simp [mapInsert, mapGet, h, h1, h2, hk, ih]

theorem mapPushArr_spec (m : JMap) (k : String) (v : Value) (l : List Value)
    (h : mapGet m k = some (Value.arr l)) :
    ∃ m', mapPushArr m k v = some m' ∧ mapGet m' k = some (Value.arr (l ++ [v])) ∧
      ∀ t, t ≠ k → mapGet m' t = mapGet m t := by
  induction m with
  | nil => simp [mapGet] at h
  | cons p m ih =>
    obtain ⟨k', v'⟩ := p
    by_cases hk : k' = k
    · subst hk
      simp [mapGet] at h
      subst h
      refine ⟨(k', Value.arr (l ++ [v])) :: m, by simp [mapPushArr], by simp [mapGet], ?_⟩
      intro t ht
      have h5 : k' ≠ t := Ne.symm ht
      simp [mapGet, h5]
    · simp only [mapGet, if_neg hk] at h
      obtain ⟨m', h1, h2, h3⟩ := ih h
      refine ⟨(k', v') :: m', by simp [mapPushArr, hk, h1], by simp [mapGet, hk, h2], ?_⟩
      intro t ht
      by_cases h4 : k' = t <;> simp [mapGet, h4, h3 t ht]

theorem mapRemoveGet_spec (m : JMap) (k : String) (w : Value)
    (h : mapGet m k = some w) :
    ∃ m', mapRemoveGet m k = some (w, m') ∧
      ∀ t, t ≠ k → mapGet m' t = mapGet m t := by
  induction m with
  | nil => simp [mapGet] at h
  | cons p m ih =>
    obtain ⟨k', v'⟩ := p
    by_cases hk : k' = k
    · subst hk
      simp [mapGet] at h
      subst h
      refine ⟨m, by simp [mapRemoveGet], ?_⟩
      intro t ht
      have h5 : k' ≠ t := Ne.symm ht
      simp [mapGet, h5]
    · simp only [mapGet, if_neg hk] at h
      obtain ⟨m', h1, h2⟩ := ih h
      refine ⟨(k', v') :: m', by simp [mapRemoveGet, hk, h1], ?_⟩
      intro t ht
      by_cases h4 : k' = t <;> simp [mapGet, h4, h2 t ht]

/-! ### Bridging lemmas for the per-key fold effect -/

theorem keyResult_vectorized (l : List Value) (v : Value) (ws : List Value) :
    keyResult (some (Value.arr (l ++ [v]))) true true ws =
      keyResult (some (Value.arr l)) true true (v :: ws) := by
  cases ws <;> simp [keyResult]

theorem keyResult_promote (p v : Value) (ws : List Value) :
    keyResult (some (Value.arr [p, v])) true true ws =
      keyResult (some p) true false (v :: ws) := by
  cases ws <;> simp [keyResult]

theorem keyResult_first (prior : Option Value) (v : Value) (ws : List Value) :
    keyResult (some v) true false ws = keyResult prior false false (v :: ws) := by
  cases ws <;> simp [keyResult]

theorem keyResult_empty_start (vs : List Value) :
    keyResult none false false vs = groupRule vs := by
  match vs with
  | [] => rfl
  | [v] => rfl
  | v :: w :: ws => simp [keyResult, groupRule]

theorem okValuesAt_cons_skip (t name : String) (res : Except Unit (Option Value))
    (ps : List (String × Except Unit (Option Value)))
    (h : ∀ v, res ≠ Except.ok (some v)) :
    okValuesAt t ((name, res) :: ps) = okValuesAt t ps := by
  match res with
  | Except.error er => rfl
  | Except.ok none => rfl
  | Except.ok (some v) => exact absurd rfl (h v)

/-- The central characterization of the child fold: given consistent fold
state, the fold never panics and its per-key result is described by
`keyResult` over the contributed values. -/
theorem foldPairs_spec (ps : List (String × Except Unit (Option Value))) :
    ∀ (data : JMap) (fp vz : List String),
    (∀ p ∈ ps, ∃ r, p.2 = Except.ok r) →
    (∀ t, t ∈ vz → t ∈ fp) →
    (∀ t, t ∈ fp → ∃ w, mapGet data t = some w) →
    (∀ t, t ∈ vz → ∃ l, mapGet data t = some (Value.arr l)) →
    ∃ m, foldPairs ps data fp vz = Except.ok m ∧
      ∀ t, mapGet m t =
        keyResult (mapGet data t) (decide (t ∈ fp)) (decide (t ∈ vz)) (okValuesAt t ps) := by
  induction ps with
  | nil =>
    intro data fp vz _ _ _ _
    exact ⟨data, rfl, fun t => rfl⟩
  | cons p ps ih =>
    obtain ⟨name, res⟩ := p
    intro data fp vz hok hsub hfp hvz
    obtain ⟨r, hr⟩ := hok (name, res) (List.mem_cons_self _ _)
    simp only at hr
    subst hr
    have htail : ∀ p ∈ ps, ∃ r, p.2 = Except.ok r :=
      fun p hp => hok p (List.mem_cons_of_mem _ hp)
    cases r with
    | none =>
      obtain ⟨m, hm, hchar⟩ := ih data fp vz htail hsub hfp hvz
      refine ⟨m, by simpa [foldPairs] using hm, ?_⟩
      intro t
      rw [hchar t]
      rfl
    | some v =>
      by_cases hf : name ∈ fp
      · by_cases hv : name ∈ vz
        · -- third and later duplicates: push onto the existing array
          obtain ⟨l, hl⟩ := hvz name hv
          obtain ⟨data', hpush, hgetk, hgetne⟩ := mapPushArr_spec data name v l hl
          obtain ⟨m, hm, hchar⟩ := ih data' fp vz htail hsub
            (fun t ht => by
              by_cases hteq : t = name
              · exact ⟨Value.arr (l ++ [v]), hteq ▸ hgetk⟩
              · rw [hgetne t hteq]; exact hfp t ht)
            (fun t ht => by
              by_cases hteq : t = name
              · exact ⟨l ++ [v], hteq ▸ hgetk⟩
              · rw [hgetne t hteq]; exact hvz t ht)
          refine ⟨m, ?_, ?_⟩
          · simp only [foldPairs, if_pos hf, if_pos hv, hpush]
            exact hm
          · intro t
            rw [hchar t]
            by_cases hteq : t = name
            · subst hteq
              rw [hgetk, hl]
              simp only [okValuesAt, if_pos rfl, decide_eq_true hf, decide_eq_true hv]
              exact keyResult_vectorized l v (okValuesAt t ps)
            · rw [hgetne t hteq]
              congr 1
              simp [okValuesAt, Ne.symm hteq]
        · -- first duplicate: remove the plain entry, re-insert as a pair array
          obtain ⟨pv, hpv⟩ := hfp name hf
          obtain ⟨data', hrem, hremne⟩ := mapRemoveGet_spec data name pv hpv
          have hvzne : ∀ t, t ∈ vz → t ≠ name := fun t ht he => hv (he ▸ ht)
          obtain ⟨m, hm, hchar⟩ := ih (mapInsert data' name (Value.arr [pv, v])) fp (name :: vz)
            htail
            (fun t ht => by
              rcases List.mem_cons.mp ht with h1 | h1
              · exact h1 ▸ hf
              · exact hsub t h1)
            (fun t ht => by
              by_cases hteq : t = name
              · exact ⟨Value.arr [pv, v], by rw [hteq, mapGet_mapInsert_self]⟩
              · rw [mapGet_mapInsert_ne _ _ _ _ hteq, hremne t hteq]; exact hfp t ht)
            (fun t ht => by
              rcases List.mem_cons.mp ht with h1 | h1
              · exact ⟨[pv, v], by rw [h1, mapGet_mapInsert_self]⟩
              · have hteq := hvzne t h1
                rw [mapGet_mapInsert_ne _ _ _ _ hteq, hremne t hteq]
                exact hvz t h1)
          refine ⟨m, ?_, ?_⟩
          · simp only [foldPairs, if_pos hf, if_neg hv, hrem]
            exact hm
          · intro t
            rw [hchar t]
            by_cases hteq : t = name
            · subst hteq
              rw [mapGet_mapInsert_self, hpv]
              have hin : t ∈ t :: vz := List.mem_cons_self _ _
              simp only [okValuesAt, if_pos rfl, decide_eq_true hf, decide_eq_true hin,
                decide_eq_false hv]
              exact keyResult_promote pv v (okValuesAt t ps)
            · rw [mapGet_mapInsert_ne _ _ _ _ hteq, hremne t hteq]
              have hmem : decide (t ∈ name :: vz) = decide (t ∈ vz) :=
                decide_eq_decide.mpr (by simp [List.mem_cons, hteq])
              rw [hmem]
              congr 1
              simp [okValuesAt, Ne.symm hteq]
      · -- first occurrence: plain insertion
        have hnv : name ∉ vz := fun h => hf (hsub name h)
        obtain ⟨m, hm, hchar⟩ := ih (mapInsert data name v) (name :: fp) vz
          htail
          (fun t ht => List.mem_cons_of_mem _ (hsub t ht))
          (fun t ht => by
            rcases List.mem_cons.mp ht with h1 | h1
            · exact ⟨v, by rw [h1, mapGet_mapInsert_self]⟩
            · have hteq : t ≠ name := fun he => hf (he ▸ h1)
              rw [mapGet_mapInsert_ne _ _ _ _ hteq]
              exact hfp t h1)
          (fun t ht => by
            have h1 := hsub t ht
            have hteq : t ≠ name := fun he => hf (he ▸ h1)
            rw [mapGet_mapInsert_ne _ _ _ _ hteq]
            exact hvz t ht)
        refine ⟨m, ?_, ?_⟩
        · simp only [foldPairs, if_neg hf]
          exact hm
        · intro t
          rw [hchar t]
          by_cases hteq : t = name
          · subst hteq
            rw [mapGet_mapInsert_self]
            have hin : t ∈ t :: fp := List.mem_cons_self _ _
            simp only [okValuesAt, if_pos rfl, decide_eq_true hin, decide_eq_false hf,
              decide_eq_false hnv]
            exact keyResult_first (mapGet data t) v (okValuesAt t ps)
          · rw [mapGet_mapInsert_ne _ _ _ _ hteq]
            have hmem : decide (t ∈ name :: fp) = decide (t ∈ fp) :=
              decide_eq_decide.mpr (by simp [List.mem_cons, hteq])
            rw [hmem]
            congr 1
            simp [okValuesAt, Ne.symm hteq]

/-! ### Keys, appending, and attribute-prefix preservation -/

theorem keysOf_append (m1 m2 : JMap) : keysOf (m1 ++ m2) = keysOf m1 ++ keysOf m2 := by
  simp [keysOf]

theorem mapGet_isSome_iff (m : JMap) (k : String) :
    (mapGet m k).isSome = true ↔ k ∈ keysOf m := by
  induction m with
  | nil => simp [mapGet, keysOf]
  | cons p m ih =>
    obtain ⟨k', v'⟩ := p
    by_cases h : k' = k
    · subst h
      simp [mapGet, keysOf]
    · simp [mapGet, keysOf, h, ih, Ne.symm h]

theorem mapGet_append_left (m1 m2 : JMap) (k : String) (v : Value)
    (h : mapGet m1 k = some v) : mapGet (m1 ++ m2) k = some v := by
  induction m1 with
  | nil => simp [mapGet] at h
  | cons p m1 ih =>
    obtain ⟨k', v'⟩ := p
    by_cases hk : k' = k
    · subst hk
      simp [mapGet] at h
      simp [mapGet, h]
    · simp only [mapGet, if_neg hk] at h
      simp [mapGet, hk, ih h]

theorem mapGet_of_mem_nodup (m : JMap) (k : String) (v : Value)
    (hnd : (keysOf m).Nodup) (h : (k, v) ∈ m) : mapGet m k = some v := by
  induction m with
  | nil => simp at h
  | cons p m ih =>
    obtain ⟨k', v'⟩ := p
    simp only [keysOf, List.map_cons, List.nodup_cons] at hnd
    rcases List.mem_cons.mp h with h1 | h1
    · have hk : k = k' := congrArg Prod.fst h1
      have hv : v = v' := congrArg Prod.snd h1
      subst hk
      subst hv
      simp [mapGet]
    · have hk : k' ≠ k := by
        intro he
        subst he
        exact hnd.1 (List.mem_map.mpr ⟨(k', v), h1, rfl⟩)
      simp only [mapGet, if_neg hk]
      exact ih (by simpa [keysOf] using hnd.2) h1

theorem mapInsert_eq_append (m : JMap) (k : String) (v : Value) (h : k ∉ keysOf m) :
    mapInsert m k v = m ++ [(k, v)] := by
  induction m with
  | nil => simp [mapInsert]
  | cons p m ih =>
    obtain ⟨k', v'⟩ := p
    simp only [keysOf, List.map_cons, List.mem_cons] at h
    push_neg at h
    simp [mapInsert, Ne.symm h.1, ih (by simpa [keysOf] using h.2)]

theorem mapInsert_append_of_not_mem (pre r : JMap) (k : String) (v : Value)
    (h : k ∉ keysOf pre) : mapInsert (pre ++ r) k v = pre ++ mapInsert r k v := by
  induction pre with
  | nil => simp
  | cons p pre ih =>
    obtain ⟨k', v'⟩ := p
    simp only [keysOf, List.map_cons, List.mem_cons] at h
    push_neg at h
    simp [mapInsert, Ne.symm h.1, ih (by simpa [keysOf] using h.2)]

theorem mapRemoveGet_append_of_not_mem (pre r : JMap) (k : String)
    (h : k ∉ keysOf pre) :
    mapRemoveGet (pre ++ r) k = (mapRemoveGet r k).map (fun q => (q.1, pre ++ q.2)) := by
  induction pre with
  | nil =>
    simp only [List.nil_append]
    cases mapRemoveGet r k with
    | none => simp
    | some q => simp
  | cons p pre ih =>
    obtain ⟨k', v'⟩ := p
    simp only [keysOf, List.map_cons, List.mem_cons] at h
    push_neg at h
    rw [List.cons_append]
    simp only [mapRemoveGet, if_neg (Ne.symm h.1), ih (by simpa [keysOf] using h.2)]
    cases mapRemoveGet r k with
    | none => simp
    | some q => simp

theorem mapPushArr_append_of_not_mem (pre r : JMap) (k : String) (v : Value)
    (h : k ∉ keysOf pre) :
    mapPushArr (pre ++ r) k v = (mapPushArr r k v).map (fun m => pre ++ m) := by
  induction pre with
  | nil =>
    simp only [List.nil_append]
    cases mapPushArr r k v with
    | none => simp
    | some q => simp
  | cons p pre ih =>
    obtain ⟨k', v'⟩ := p
    simp only [keysOf, List.map_cons, List.mem_cons] at h
    push_neg at h
    rw [List.cons_append]
    simp only [mapPushArr, if_neg (Ne.symm h.1), ih (by simpa [keysOf] using h.2)]
    cases mapPushArr r k v with
    | none => simp
    | some q => simp

/-- The child fold never touches entries whose keys are not child tag names:
a mapping prsection with disjoint keys passes through unchanged, in front. -/
theorem foldPairs_append (ps : List (String × Except Unit (Option Value))) :
    ∀ (pre r : JMap) (fp vz : List String), (∀ p ∈ ps, p.1 ∉ keysOf pre) →
    foldPairs ps (pre ++ r) fp vz = (foldPairs ps r fp vz).map (fun m => pre ++ m) := by
  induction ps with
  | nil => intro pre r fp vz _; rfl
  | cons p ps ih =>
    obtain ⟨name, res⟩ := p
    intro pre r fp vz h
    have hname : name ∉ keysOf pre := h (name, res) (List.mem_cons_self _ _)
    have htail : ∀ p ∈ ps, p.1 ∉ keysOf pre := fun p hp => h p (List.mem_cons_of_mem _ hp)
    cases res with
    | error er => simp [foldPairs, Except.map]
    | ok ro =>
      cases ro with
      | none =>
        simp only [foldPairs]
        exact ih pre r fp vz htail
      | some v =>
        simp only [foldPairs]
        by_cases hf : name ∈ fp
        · by_cases hv : name ∈ vz
          · simp only [if_pos hf, if_pos hv, mapPushArr_append_of_not_mem pre r name v hname]
            cases hpp : mapPushArr r name v with
            | none => simp [hpp, Except.map]
            | some d =>
              simp only [hpp, Option.map]
              exact ih pre d fp vz htail
          · simp only [if_pos hf, if_neg hv, mapRemoveGet_append_of_not_mem pre r name hname]
            cases hrr : mapRemoveGet r name with
            | none => simp [hrr, Except.map]
            | some q =>
              simp only [hrr, Option.map]
              rw [mapInsert_append_of_not_mem pre q.2 name (Value.arr [q.1, v]) hname]
              exact ih pre (mapInsert q.2 name (Value.arr [q.1, v])) fp (name :: vz) htail
        · simp only [if_neg hf, mapInsert_append_of_not_mem pre r name v hname]
          exact ih pre (mapInsert r name v) (name :: fp) vz htail

/-- Collecting pairs with fresh, pairwise distinct keys just appends them. -/
theorem collectInto_append (ps : List (String × Value)) :
    ∀ (acc : JMap), (ps.map Prod.fst).Nodup → (∀ k ∈ ps.map Prod.fst, k ∉ keysOf acc) →
    collectInto acc ps = acc ++ ps := by
  induction ps with
  | nil => intro acc _ _; simp [collectInto]
  | cons p ps ih =>
    obtain ⟨k, v⟩ := p
    intro acc hnd hdisj
    simp only [List.map_cons, List.nodup_cons] at hnd
    have hk : k ∉ keysOf acc := hdisj k (by simp)
    have step : collectInto acc ((k, v) :: ps) = collectInto (mapInsert acc k v) ps := rfl
    rw [step, mapInsert_eq_append acc k v hk, ih (acc ++ [(k, v)]) hnd.2 ?_]
    · simp
    · intro k' hk'
      rw [keysOf_append]
      simp only [List.mem_append]
      push_neg
      refine ⟨fun hc => hdisj k' (by simp [hk']) hc, ?_⟩
      simp [keysOf]
      intro he
      exact absurd (he ▸ hk') hnd.1

/-! ### Unfolding and totality of the converter -/

theorem childResults_cons (c : Element) (cs : List Element) :
    childResults (c :: cs) = (Element.name c, convert_node_aux c) :: childResults cs := by
  simp [childResults]

theorem mem_childResults (cs : List Element) (p : String × Except Unit (Option Value))
    (h : p ∈ childResults cs) : ∃ c ∈ cs, p = (Element.name c, convert_node_aux c) := by
  induction cs with
  | nil => simp [childResults] at h
  | cons c cs ih =>
    rw [childResults_cons] at h
    rcases List.mem_cons.mp h with h1 | h1
    · exact ⟨c, by simp, h1⟩
    · obtain ⟨c', hc', he⟩ := ih h1
      exact ⟨c', by simp [hc'], he⟩

theorem okValuesAt_ne_nil (t : String) (ps : List (String × Except Unit (Option Value)))
    (h : okValuesAt t ps ≠ []) : ∃ p ∈ ps, p.1 = t := by
  induction ps with
  | nil => simp [okValuesAt] at h
  | cons p ps ih =>
    obtain ⟨name, res⟩ := p
    match res with
    | Except.error er =>
      obtain ⟨p', hp', he⟩ := ih (by simpa [okValuesAt] using h)
      exact ⟨p', List.mem_cons_of_mem _ hp', he⟩
    | Except.ok none =>
      obtain ⟨p', hp', he⟩ := ih (by simpa [okValuesAt] using h)
      exact ⟨p', List.mem_cons_of_mem _ hp', he⟩
    | Except.ok (some v) =>
      by_cases hn : name = t
      · exact ⟨(name, Except.ok (some v)), by simp, hn⟩
      · obtain ⟨p', hp', he⟩ := ih (by simpa [okValuesAt, hn] using h)
        exact ⟨p', List.mem_cons_of_mem _ hp', he⟩

theorem convert_eq (nm : String) (a : List (String × String)) (t c : Option String)
    (ch : List Element) :
    convert_node_aux (Element.mk nm a t c ch) =
      match scan_xml_node (Element.mk nm a t c ch) with
      | XMLNodeType.Parent =>
        (match foldPairs (childResults ch) (collectInto [] (attrPairsOf a)) [] [] with
         | Except.error er => Except.error er
         | Except.ok m => Except.ok (some (Value.object m)))
      | XMLNodeType.Text => Except.ok (some (parse_text_contents (Element.mk nm a t c ch)))
      | XMLNodeType.Attributes => Except.ok (some (Value.object (collectInto [] (attrPairsOf a))))
      | XMLNodeType.TextAndAttributes =>
        Except.ok (some (Value.object (collectInto []
          (attrPairsOf a ++ [("#text", parse_text_contents (Element.mk nm a t c ch))]))))
      | _ => Except.ok none := by
  rw [convert_node_aux]

theorem convert_of_scan_empty (e : Element) (h : scan_xml_node e = XMLNodeType.Empty) :
    convert_node_aux e = Except.ok none := by
  obtain ⟨nm, a, t, c, ch⟩ := e
  rw [convert_eq, h]

theorem convert_of_scan_semi (e : Element) (h : scan_xml_node e = XMLNodeType.SemiStructured) :
    convert_node_aux e = Except.ok none := by
  obtain ⟨nm, a, t, c, ch⟩ := e
  rw [convert_eq, h]

theorem convert_of_scan_text (e : Element) (h : scan_xml_node e = XMLNodeType.Text) :
    convert_node_aux e = Except.ok (some (parse_text_contents e)) := by
  obtain ⟨nm, a, t, c, ch⟩ := e
  rw [convert_eq, h]

theorem convert_of_scan_attrs (e : Element) (h : scan_xml_node e = XMLNodeType.Attributes) :
    convert_node_aux e = Except.ok (some (Value.object (collectInto [] (attrPairsOf e.attributes)))) := by
  obtain ⟨nm, a, t, c, ch⟩ := e
  rw [convert_eq, h]
  rfl

theorem convert_of_scan_textattrs (e : Element)
    (h : scan_xml_node e = XMLNodeType.TextAndAttributes) :
    convert_node_aux e = Except.ok (some (Value.object (collectInto []
      (attrPairsOf e.attributes ++ [("#text", parse_text_contents e)])))) := by
  obtain ⟨nm, a, t, c, ch⟩ := e
  rw [convert_eq, h]
  rfl

theorem convert_of_scan_parent (e : Element) (h : scan_xml_node e = XMLNodeType.Parent) :
    convert_node_aux e =
      (match foldPairs (childResults e.children) (collectInto [] (attrPairsOf e.attributes)) [] [] with
       | Except.error er => Except.error er
       | Except.ok m => Except.ok (some (Value.object m))) := by
  obtain ⟨nm, a, t, c, ch⟩ := e
  rw [convert_eq, h]
  rfl

theorem convert_node_aux_ok_of_size :
    ∀ (k : ℕ) (e : Element), sizeOf e ≤ k → ∃ r, convert_node_aux e = Except.ok r := by
  intro k
  induction k with
  | zero =>
    intro e he
    exfalso
    obtain ⟨nm, a, t, c, ch⟩ := e
    simp [Element.mk.sizeOf_spec] at he
  | succ k ih =>
    intro e he
    obtain ⟨nm, a, t, c, ch⟩ := e
    have hch : ∀ x ∈ ch, sizeOf x ≤ k := by
      intro x hx
      have h1 := List.sizeOf_lt_of_mem hx
      simp only [Element.mk.sizeOf_spec] at he
      omega
    have hok : ∀ p ∈ childResults ch, ∃ r, p.2 = Except.ok r := by
      intro p hp
      obtain ⟨cc, hcc, he'⟩ := mem_childResults ch p hp
      rw [he']
      exact ih cc (hch cc hcc)
    rw [convert_eq]
    cases hsc : scan_xml_node (Element.mk nm a t c ch) with
    | Parent =>
      obtain ⟨m, hm, _⟩ := foldPairs_spec (childResults ch) (collectInto [] (attrPairsOf a)) [] []
        hok (by simp) (by simp) (by simp)
      rw [hm]
      exact ⟨some (Value.object m), rfl⟩
    | Empty => exact ⟨none, rfl⟩
    | Text => exact ⟨_, rfl⟩
    | Attributes => exact ⟨_, rfl⟩
    | TextAndAttributes => exact ⟨_, rfl⟩
    | SemiStructured => exact ⟨none, rfl⟩

/-- The converter never reaches a failing `unwrap`. -/
theorem convert_node_aux_ok (e : Element) : ∃ r, convert_node_aux e = Except.ok r :=
  convert_node_aux_ok_of_size (sizeOf e) e (Nat.le_refl _)

/-! ### Small string and parser facts -/

theorem at_append_inj (x y : String) (h : "@" ++ x = "@" ++ y) : x = y := by
  have hd := congrArg String.data h
  rw [String.data_append .., String.data_append ..] at hd
  simp at hd
  exact String.ext hd

theorem at_append_ne_hash_text (s : String) : "@" ++ s ≠ "#text" := by
  intro h
  have hd := congrArg String.data h
  rw [String.data_append ..] at hd
  have h1 : "@".data = ['@'] := rfl
  have h2 : "#text".data = ['#', 't', 'e', 'x', 't'] := rfl
  rw [h1, h2] at hd
  simp at hd

theorem parse_text_ne_arr (s : String) (l : List Value) : parse_text s ≠ Value.arr l := by
  unfold parse_text
  cases rustFloatJsonNumber s with
  | some q => simp
  | none =>
    cases rustParseBool s with
    | some b => simp
    | none => simp

/-! ### Claim theorems -/

/-- C4: for every XML node, the Node Classifier deterministically returns
exactly one of the six shape categories by the stated precedence: with no
children, the category is fixed by presence of text/CDATA and of attributes
(`Empty` / `Attributes` / `Text` / `TextAndAttributes`); with children, it is
`Parent` exactly when there is no text and no CDATA, else `SemiStructured`.
The classifier is a pure function of the node's shape. -/
theorem scan_xml_node_classification (e : Element) :
    (scan_xml_node e = XMLNodeType.Empty ↔
      e.children = [] ∧ e.text = none ∧ e.cdata = none ∧ e.attributes = []) ∧
    (scan_xml_node e = XMLNodeType.Attributes ↔
      e.children = [] ∧ e.text = none ∧ e.cdata = none ∧ e.attributes ≠ []) ∧
    (scan_xml_node e = XMLNodeType.Text ↔
      e.children = [] ∧ (e.text ≠ none ∨ e.cdata ≠ none) ∧ e.attributes = []) ∧
    (scan_xml_node e = XMLNodeType.TextAndAttributes ↔
      e.children = [] ∧ (e.text ≠ none ∨ e.cdata ≠ none) ∧ e.attributes ≠ []) ∧
    (scan_xml_node e = XMLNodeType.Parent ↔
      e.children ≠ [] ∧ e.text = none ∧ e.cdata = none) ∧
    (scan_xml_node e = XMLNodeType.SemiStructured ↔
      e.children ≠ [] ∧ (e.text ≠ none ∨ e.cdata ≠ none)) := by
  obtain ⟨nm, a, t, c, ch⟩ := e
  cases t <;> cases c <;> cases a <;> cases ch <;>
    simp [scan_xml_node, Element.children, Element.text, Element.cdata, Element.attributes]

/-- C6: for every root XML node, `node2object` returns a mapping with exactly
one entry whose key is the root's tag name and whose value is the converter's
result, with `null` substituted when the converter yields no value. -/
theorem node2object_wraps_root (e : Element) :
    ∃ v, convert_node_aux e = Except.ok v ∧
      node2object e = Except.ok [(e.name, v.getD Value.null)] := by
  obtain ⟨r, hr⟩ := convert_node_aux_ok e
  exact ⟨r, hr, by simp [node2object, hr]⟩

/-- C9: the conversion is total over the model of well-formed XML node trees:
`node2object` always returns a result, so no `unwrap` inside the child fold
can fail and no panic is reachable. -/
theorem conversion_total (e : Element) : ∃ m, node2object e = Except.ok m := by
  obtain ⟨r, hr⟩ := convert_node_aux_ok e
  exact ⟨[(e.name, r.getD Value.null)], by simp [node2object, hr]⟩

/-- C5: a node classified `SemiStructured` produces no value, and such a child
contributes nothing to its parent's fold: the fold state (mapping, first-pass
set, vectorized set) passes through it unchanged. -/
theorem semistructured_contributes_nothing (e : Element)
    (h : scan_xml_node e = XMLNodeType.SemiStructured) :
    convert_node_aux e = Except.ok none ∧
    ∀ ps data fp vz,
      foldPairs ((e.name, convert_node_aux e) :: ps) data fp vz = foldPairs ps data fp vz := by
  refine ⟨convert_of_scan_semi e h, ?_⟩
  intro ps data fp vz
  rw [convert_of_scan_semi e h]
  rfl

/-- C5 witness: a concrete mixed-content node (text alongside a child). -/
theorem semistructured_contributes_nothing_witness :
    scan_xml_node (Element.mk "e" [] (some "x") none [Element.mk "a" [] none none []]) =
      XMLNodeType.SemiStructured ∧
    convert_node_aux (Element.mk "e" [] (some "x") none [Element.mk "a" [] none none []]) =
      Except.ok none :=
  ⟨by decide,
   (semistructured_contributes_nothing
     (Element.mk "e" [] (some "x") none [Element.mk "a" [] none none []]) (by decide)).1⟩

/-- C10: the per-node converter never returns a JSON array as its top-level
result: whenever it produces a value, that value is not an array. -/
theorem convert_top_level_not_array (e : Element) (v : Value)
    (h : convert_node_aux e = Except.ok (some v)) : ∀ l, v ≠ Value.arr l := by
  intro l he
  subst he
  obtain ⟨nm, a, t, c, ch⟩ := e
  rw [convert_eq] at h
  cases hsc : scan_xml_node (Element.mk nm a t c ch) <;> rw [hsc] at h
  case Empty => simp at h
  case SemiStructured => simp at h
  case Text =>
    simp only [Except.ok.injEq, Option.some.injEq] at h
    simp only [parse_text_contents] at h
    exact parse_text_ne_arr _ l h
  case Attributes => simp at h
  case TextAndAttributes => simp at h
  case Parent =>
    cases hq : foldPairs (childResults ch) (collectInto [] (attrPairsOf a)) [] [] <;>
      rw [hq] at h <;> simp at h

theorem childResults_nil : childResults [] = [] := by
  simp [childResults]

/-- C10 witness: a concrete text node produces a non-array scalar. -/
theorem convert_top_level_not_array_witness :
    convert_node_aux (Element.mk "a" [] (some "p") none []) = Except.ok (some (Value.str "p")) ∧
    ∀ l, Value.str "p" ≠ Value.arr l := by
  have hconv : convert_node_aux (Element.mk "a" [] (some "p") none []) =
      Except.ok (some (Value.str "p")) := by
    rw [convert_of_scan_text _ (by decide)]
    rfl
  exact ⟨hconv, convert_top_level_not_array _ _ hconv⟩

unseal Rat.mul Rat.inv Rat.add Rat.sub in
/-- C3: the Text Value Parser is total and tries, in order: finite
representable number, exact boolean literal, raw string.  The empty string
falls through to the string `""`; a numeric parse yielding a non-finite value
(overflow such as `1e999`, or the literal `inf`) is a failed trial and falls
through to the following trials. -/
theorem parse_text_trial_order :
    (∀ s q, rustFloatJsonNumber s = some q → parse_text s = Value.number q) ∧
    (∀ s b, rustFloatJsonNumber s = none → rustParseBool s = some b →
      parse_text s = Value.bool b) ∧
    (∀ s, rustFloatJsonNumber s = none → rustParseBool s = none →
      parse_text s = Value.str s) ∧
    parse_text "" = Value.str "" ∧
    rustFloatJsonNumber "1e999" = none ∧ parse_text "1e999" = Value.str "1e999" ∧
    parseF64 "inf" = some (FloatParse.infVal false) ∧ parse_text "inf" = Value.str "inf" := by
  have t1 : ∀ s q, rustFloatJsonNumber s = some q → parse_text s = Value.number q := by
    intro s q h
    simp [parse_text, h]
  have t2 : ∀ s b, rustFloatJsonNumber s = none → rustParseBool s = some b →
      parse_text s = Value.bool b := by
    intro s b h1 h2
    simp [parse_text, h1, h2]
  have t3 : ∀ s, rustFloatJsonNumber s = none → rustParseBool s = none →
      parse_text s = Value.str s := by
    intro s h1 h2
    simp [parse_text, h1, h2]
  have e1 : rustFloatJsonNumber "1e999" = none := by decide
  have e2 : parseF64 "inf" = some (FloatParse.infVal false) := by decide
  have e3 : rustFloatJsonNumber "inf" = none := by decide
  exact ⟨t1, t2, t3, t3 "" (by decide) (by decide), e1, t3 "1e999" e1 (by decide),
    e2, t3 "inf" e3 (by decide)⟩

unseal Rat.mul Rat.inv Rat.add Rat.sub in
/-- C3 witness: concrete trials of each kind. -/
theorem parse_text_trial_order_witness :
    parse_text "9000" = Value.number 9000 ∧ parse_text "true" = Value.bool true ∧
    parse_text "Kolya" = Value.str "Kolya" :=
  ⟨parse_text_trial_order.1 "9000" 9000 (by decide),
   parse_text_trial_order.2.1 "true" true (by decide) (by decide),
   parse_text_trial_order.2.2.1 "Kolya" (by decide) (by decide)⟩

/-- C1 counterexample: the node `<a/>` is classified `Empty`, yet the
converter yields no value (not JSON `null`), and as a child of `<e><a/></e>`
it contributes no entry at all to the parent's fold: the parent converts to
the empty object rather than to the object with entry `"a" ↦ null`. -/
theorem empty_child_skipped_cx :
    convert_node_aux (Element.mk "a" [] none none []) = Except.ok none ∧
    Except.ok none ≠ (Except.ok (some Value.null) : Except Unit (Option Value)) ∧
    convert_node_aux (Element.mk "e" [] none none [Element.mk "a" [] none none []]) =
      Except.ok (some (Value.object [])) := by
  have h1 : convert_node_aux (Element.mk "a" [] none none []) = Except.ok none :=
    convert_of_scan_empty _ (by decide)
  refine ⟨h1, by simp, ?_⟩
  rw [convert_of_scan_parent _ (by decide)]
  simp only [Element.children, Element.attributes, childResults_cons, childResults_nil,
    Element.name, h1]
  rfl

/-- C1 (amended): a node classified `Empty` yields NO value from the tree
converter (the catch-all `_ => None` arm also covers `Empty`); the `null` seen
for an empty root comes from the entry point's substitution, and an `Empty`
child of a `Parent` node is skipped by the fold exactly like a
`SemiStructured` child. -/
theorem empty_yields_none (e : Element) (h : scan_xml_node e = XMLNodeType.Empty) :
    convert_node_aux e = Except.ok none ∧
    node2object e = Except.ok [(e.name, Value.null)] ∧
    ∀ ps data fp vz,
      foldPairs ((e.name, convert_node_aux e) :: ps) data fp vz = foldPairs ps data fp vz := by
  have h1 := convert_of_scan_empty e h
  refine ⟨h1, by simp [node2object, h1], ?_⟩
  intro ps data fp vz
  rw [h1]
  rfl

/-- C1 witness: the empty root of the crate's own `node2object_empty` test. -/
theorem empty_yields_none_witness :
    scan_xml_node (Element.mk "e" [] none none []) = XMLNodeType.Empty ∧
    node2object (Element.mk "e" [] none none []) = Except.ok [("e", Value.null)] :=
  ⟨by decide, (empty_yields_none (Element.mk "e" [] none none []) (by decide)).2.1⟩

/-- C2 counterexample: folding `<e><a>p</a><b>q</b><a>r</a></e>` yields the
mapping with key order `["b", "a"]`, not the sibling first-occurrence order
`["a", "b"]`: the first-duplicate promotion removes the existing `"a"` entry
and re-inserts it at the end of the mapping. -/
theorem fold_key_order_cx :
    convert_node_aux (Element.mk "e" [] none none
      [Element.mk "a" [] (some "p") none [], Element.mk "b" [] (some "q") none [],
       Element.mk "a" [] (some "r") none []]) =
      Except.ok (some (Value.object
        [("b", Value.str "q"), ("a", Value.arr [Value.str "p", Value.str "r"])])) ∧
    keysOf [("b", Value.str "q"), ("a", Value.arr [Value.str "p", Value.str "r"])] = ["b", "a"] ∧
    (["b", "a"] : List String) ≠ ["a", "b"] := by
  have ha : convert_node_aux (Element.mk "a" [] (some "p") none []) =
      Except.ok (some (Value.str "p")) := by
    rw [convert_of_scan_text _ (by decide)]
    rfl
  have hb : convert_node_aux (Element.mk "b" [] (some "q") none []) =
      Except.ok (some (Value.str "q")) := by
    rw [convert_of_scan_text _ (by decide)]
    rfl
  have hc : convert_node_aux (Element.mk "a" [] (some "r") none []) =
      Except.ok (some (Value.str "r")) := by
    rw [convert_of_scan_text _ (by decide)]
    rfl
  refine ⟨?_, by decide, by decide⟩
  rw [convert_of_scan_parent _ (by decide)]
  simp only [Element.children, Element.attributes, childResults_cons, childResults_nil,
    Element.name, ha, hb, hc]
  rfl

/-- C2 (amended): processing children of a `Parent` node in document order, a
tag not yet folded is inserted plain; its first duplicate replaces the entry
by the two-element array of prior and new value (re-inserted at the end of
the mapping, so key order follows the last re-insertion, not first
occurrence); later duplicates append in place.  Net per-key effect: a tag
contributing once maps to its value, a tag contributing more than once maps
to the array of its values in document order. -/
theorem child_fold_grouping (e : Element)
    (hscan : scan_xml_node e = XMLNodeType.Parent)
    (hattr : e.attributes = []) :
    ∃ m, convert_node_aux e = Except.ok (some (Value.object m)) ∧
      ∀ t, mapGet m t = groupRule (okValuesAt t (childResults e.children)) := by
  have hok : ∀ p ∈ childResults e.children, ∃ r, p.2 = Except.ok r := by
    intro p hp
    obtain ⟨c, hc, he⟩ := mem_childResults _ p hp
    rw [he]
    exact convert_node_aux_ok c
  obtain ⟨m, hm, hchar⟩ := foldPairs_spec (childResults e.children) [] [] []
    hok (by simp) (by simp) (by simp)
  refine ⟨m, ?_, ?_⟩
  · rw [convert_of_scan_parent e hscan, hattr]
    have hcoll : collectInto [] (attrPairsOf []) = ([] : JMap) := rfl
    rw [hcoll, hm]
  · intro t
    rw [hchar t]
    simp only [mapGet]
    have hfp : decide (t ∈ ([] : List String)) = false := by simp
    rw [hfp]
    exact keyResult_empty_start _

/-- C2 witness: two same-named siblings become a two-element array. -/
theorem child_fold_grouping_witness :
    scan_xml_node (Element.mk "s" [] none none
      [Element.mk "a" [] (some "p") none [], Element.mk "a" [] (some "q") none []]) =
      XMLNodeType.Parent ∧
    ∃ m, convert_node_aux (Element.mk "s" [] none none
        [Element.mk "a" [] (some "p") none [], Element.mk "a" [] (some "q") none []]) =
        Except.ok (some (Value.object m)) ∧
      ∀ t, mapGet m t = groupRule (okValuesAt t (childResults
        (Element.mk "s" [] none none
          [Element.mk "a" [] (some "p") none [],
           Element.mk "a" [] (some "q") none []]).children)) :=
  ⟨by decide, child_fold_grouping _ (by decide) rfl⟩

theorem keysOf_attrPairsOf (a : List (String × String)) :
    keysOf (attrPairsOf a) = (a.map Prod.fst).map (fun s => "@" ++ s) := by
  simp [keysOf, attrPairsOf, List.map_map]

theorem attrKeys_nodup (a : List (String × String)) (hnd : (a.map Prod.fst).Nodup) :
    (keysOf (attrPairsOf a)).Nodup := by
  rw [keysOf_attrPairsOf]
  exact hnd.map (fun x y h => at_append_inj x y h)

theorem collect_attrs (a : List (String × String)) (hnd : (a.map Prod.fst).Nodup) :
    collectInto [] (attrPairsOf a) = attrPairsOf a := by
  have h := collectInto_append (attrPairsOf a) [] (attrKeys_nodup a hnd) (by simp [keysOf])
  simpa using h

/-- C7: every attribute `k = v` becomes the entry `"@k" ↦ parse_text v`, in
attribute order; in a `Parent` node these entries sit in front of all child
entries; and (tag names being free of the `"@"` prefix) an attribute entry is
never touched by a child entry, so the two kinds of keys cannot collide. -/
theorem attribute_entries_spec (e : Element)
    (hnd : (e.attributes.map Prod.fst).Nodup)
    (hcol : ∀ kv ∈ e.attributes, ∀ c ∈ e.children, Element.name c ≠ "@" ++ kv.1) :
    (scan_xml_node e = XMLNodeType.Attributes →
      convert_node_aux e = Except.ok (some (Value.object (attrPairsOf e.attributes)))) ∧
    (scan_xml_node e = XMLNodeType.Parent →
      ∃ rest, convert_node_aux e =
          Except.ok (some (Value.object (attrPairsOf e.attributes ++ rest))) ∧
        (∀ k, (mapGet rest k).isSome = true → ∃ c ∈ e.children, Element.name c = k) ∧
        (∀ kv ∈ e.attributes,
          mapGet (attrPairsOf e.attributes ++ rest) ("@" ++ kv.1) =
            some (parse_text kv.2))) := by
  constructor
  · intro h
    rw [convert_of_scan_attrs e h, collect_attrs _ hnd]
  · intro h
    have hok : ∀ p ∈ childResults e.children, ∃ r, p.2 = Except.ok r := by
      intro p hp
      obtain ⟨c, hc, he⟩ := mem_childResults _ p hp
      rw [he]
      exact convert_node_aux_ok c
    obtain ⟨restM, hfold, hchar⟩ := foldPairs_spec (childResults e.children) [] [] []
      hok (by simp) (by simp) (by simp)
    have hnames : ∀ p ∈ childResults e.children, p.1 ∉ keysOf (attrPairsOf e.attributes) := by
      intro p hp hmem
      obtain ⟨c, hc, he⟩ := mem_childResults _ p hp
      rw [keysOf_attrPairsOf] at hmem
      obtain ⟨s, hs, hkey⟩ := List.mem_map.mp hmem
      obtain ⟨kv, hkv, hfst⟩ := List.mem_map.mp hs
      refine hcol kv hkv c hc ?_
      have hp1 : p.1 = Element.name c := by rw [he]
      rw [← hp1, ← hkey, hfst]
    have happ := foldPairs_append (childResults e.children)
      (attrPairsOf e.attributes) [] [] [] hnames
    rw [List.append_nil] at happ
    refine ⟨restM, ?_, ?_, ?_⟩
    · rw [convert_of_scan_parent e h, collect_attrs _ hnd, happ, hfold]
      rfl
    · intro k hk
      rw [hchar k] at hk
      simp only [mapGet] at hk
      have hd : decide (k ∈ ([] : List String)) = false := by simp
      rw [hd, keyResult_empty_start] at hk
      have hne : okValuesAt k (childResults e.children) ≠ [] := by
        intro hnil
        rw [hnil] at hk
        simp [groupRule] at hk
      obtain ⟨p, hp, hp1⟩ := okValuesAt_ne_nil _ _ hne
      obtain ⟨c, hc, he⟩ := mem_childResults _ p hp
      refine ⟨c, hc, ?_⟩
      rw [he] at hp1
      simpa using hp1
    · intro kv hkv
      exact mapGet_append_left _ _ _ _
        (mapGet_of_mem_nodup _ _ _ (attrKeys_nodup _ hnd)
          (List.mem_map.mpr ⟨kv, hkv, rfl⟩))

/-- C7 witness: a parent node carrying one attribute and one child. -/
theorem attribute_entries_spec_witness :
    scan_xml_node (Element.mk "a" [("pizza", "hotdog")] none none
      [Element.mk "b" [] (some "x") none []]) = XMLNodeType.Parent ∧
    (∃ rest, convert_node_aux (Element.mk "a" [("pizza", "hotdog")] none none
        [Element.mk "b" [] (some "x") none []]) =
        Except.ok (some (Value.object (attrPairsOf
          (Element.mk "a" [("pizza", "hotdog")] none none
            [Element.mk "b" [] (some "x") none []]).attributes ++ rest))) ∧
      (∀ k, (mapGet rest k).isSome = true →
        ∃ c ∈ (Element.mk "a" [("pizza", "hotdog")] none none
          [Element.mk "b" [] (some "x") none []]).children, Element.name c = k) ∧
      (∀ kv ∈ (Element.mk "a" [("pizza", "hotdog")] none none
          [Element.mk "b" [] (some "x") none []]).attributes,
        mapGet (attrPairsOf (Element.mk "a" [("pizza", "hotdog")] none none
          [Element.mk "b" [] (some "x") none []]).attributes ++ rest) ("@" ++ kv.1) =
          some (parse_text kv.2))) :=
  ⟨by decide,
   (attribute_entries_spec (Element.mk "a" [("pizza", "hotdog")] none none
      [Element.mk "b" [] (some "x") none []]) (by decide) (by decide)).2 (by decide)⟩

/-- C8: a `Text` node converts to the Text Value Parser applied to text
content followed by CDATA content (absent parts contributing `""`); a
`TextAndAttributes` node converts to the `"@"`-prefixed attribute entries
followed by the entry `"#text" ↦` that same parsed scalar. -/
theorem text_content_entries (e : Element)
    (hnd : (e.attributes.map Prod.fst).Nodup) :
    (scan_xml_node e = XMLNodeType.Text →
      convert_node_aux e =
        Except.ok (some (parse_text (e.text.getD "" ++ e.cdata.getD "")))) ∧
    (scan_xml_node e = XMLNodeType.TextAndAttributes →
      convert_node_aux e = Except.ok (some (Value.object (attrPairsOf e.attributes ++
        [("#text", parse_text (e.text.getD "" ++ e.cdata.getD ""))])))) := by
  constructor
  · intro h
    rw [convert_of_scan_text e h]
    rfl
  · intro h
    rw [convert_of_scan_textattrs e h]
    have hnd2 : ((attrPairsOf e.attributes ++
        [("#text", parse_text_contents e)]).map Prod.fst).Nodup := by
      rw [List.map_append]
      rw [List.nodup_append]
      refine ⟨attrKeys_nodup _ hnd, by simp, ?_⟩
      intro x hx hmem
      have hx' : x ∈ keysOf (attrPairsOf e.attributes) := hx
      rw [keysOf_attrPairsOf] at hx'
      obtain ⟨s, hs, hkey⟩ := List.mem_map.mp hx'
      simp at hmem
      rw [← hkey] at hmem
      exact at_append_ne_hash_text s hmem
    have hc := collectInto_append (attrPairsOf e.attributes ++
      [("#text", parse_text_contents e)]) [] hnd2 (by simp [keysOf])
    rw [List.nil_append] at hc
    rw [hc]
    rfl

/-- C8 witness: the crate's own text and text-with-attributes fixtures. -/
theorem text_content_entries_witness :
    scan_xml_node (Element.mk "player" [] (some "Kolya") none []) = XMLNodeType.Text ∧
    convert_node_aux (Element.mk "player" [] (some "Kolya") none []) =
      Except.ok (some (parse_text ((Element.mk "player" [] (some "Kolya") none []).text.getD ""
        ++ (Element.mk "player" [] (some "Kolya") none []).cdata.getD ""))) ∧
    scan_xml_node (Element.mk "player" [("score", "9000")] (some "Kolya") none []) =
      XMLNodeType.TextAndAttributes ∧
    convert_node_aux (Element.mk "player" [("score", "9000")] (some "Kolya") none []) =
      Except.ok (some (Value.object (attrPairsOf
        (Element.mk "player" [("score", "9000")] (some "Kolya") none []).attributes ++
        [("#text", parse_text
          ((Element.mk "player" [("score", "9000")] (some "Kolya") none []).text.getD "" ++
           (Element.mk "player" [("score", "9000")] (some "Kolya") none []).cdata.getD ""))]))) :=
  ⟨by decide,
   (text_content_entries (Element.mk "player" [] (some "Kolya") none []) (by decide)).1
     (by decide),
   by decide,
   (text_content_entries (Element.mk "player" [("score", "9000")] (some "Kolya") none [])
     (by decide)).2 (by decide)⟩
